import Mathlib

/-!
Shallow embedding of the domain-lookup-tree repository (src/src/lib.rs).

The Rust code stores a trie of domain labels: `DomainLookupTree` owns a root
`NodeList` (a `HashMap<String, Node>`), and each `Node` carries a `wildcard`
flag, a child `NodeList` and a `data` string.  `domain_to_rseg` splits a
domain on "." and reverses the segments; `insert` walks the reversed
segments mutating `self.nodes` through the `head` reference; `traverse`
walks the reversed segments read-only, tracking a `matched` node; `lookup`
maps the traversed node to its `data` field.

The embedding below is a value-semantics translation of that code, kept
bug-for-bug faithful:
* in `insert`, the `None` arm inserts a node into the current map and
  leaves `head` unchanged (the walk does not descend into the new node),
  with wildcard flag `i == segments_len && is_wildcard` (where `i` is the
  0-based `enumerate` index, so `i == segments_len` is never true);
* in `insert`, the `Some(&n)` arm executes `*head = n.nodes`: since `head`
  is a mutable reference to `self.nodes` and is never re-pointed, this
  replaces the whole root map by the child map `n.nodes`;
* in `traverse`, the exact-match test is `i == segments.len()` (again with
  the 0-based `enumerate` index) and is only reached when
  `child.nodes.len() == 0`;
* the `parent: Option<Weak<Node>>` field is always `None` and never read,
  and the `depth` counter in `traverse` is written but never read; both are
  omitted.

`HashMap` is modelled as an association list whose `insert` overwrites the
binding of an existing key and otherwise appends; the algorithms only use
`get`, `insert` and `len`, for which this is the exact map semantics.
-/

/-- A tree node: `wildcard` flag, child list, and the `data` string holding
the node's own label (`segment.to_string()` at creation). -/
inductive Node where
  | mk (wildcard : Bool) (nodes : List (String × Node)) (data : String)
  deriving Repr

/-- Projection for the `wildcard` field of `Node`. -/
def Node.wildcard : Node → Bool
  | .mk w _ _ => w

/-- Projection for the `nodes` (children) field of `Node`. -/
def Node.nodes : Node → List (String × Node)
  | .mk _ ns _ => ns

/-- Projection for the `data` field of `Node`. -/
def Node.data : Node → String
  | .mk _ _ d => d

/-- `type NodeList = HashMap<String, Node>`, as an association list. -/
abbrev NodeList := List (String × Node)

/-- `HashMap::get`: the value bound to `k`, if any. -/
def NodeList.get? (l : NodeList) (k : String) : Option Node :=
  (l.find? (fun p => p.1 == k)).map (fun p => p.2)

/-- `HashMap::insert`: overwrite the binding of `k` when present, else append. -/
def NodeList.insertKV (l : NodeList) (k : String) (v : Node) : NodeList :=
  if l.any (fun p => p.1 == k) then
    l.map (fun p => if p.1 == k then (k, v) else p)
  else
    l ++ [(k, v)]

/-- `pub struct DomainLookupTree { nodes: Box<NodeList>, minimum_level: usize }`. -/
structure DomainLookupTree where
  nodes : NodeList
  minimum_level : Nat

/-- `DomainLookupTree::new(minimum_level)`: empty root map. -/
def DomainLookupTree.new (minimum_level : Nat) : DomainLookupTree :=
  { nodes := [], minimum_level := minimum_level }

/-- Rust `str::split('.')` on a character list: splitting on every '.',
keeping empty segments, so `"" ↦ [""]`, `"." ↦ ["", ""]`,
`"a.b" ↦ ["a", "b"]`.  Defined structurally so that the kernel can
evaluate it (Lean's `String.splitOn` is well-founded and does not reduce). -/
def splitDots : List Char → List (List Char)
  | [] => [[]]
  | c :: cs =>
    if c = '.' then [] :: splitDots cs
    else
      match splitDots cs with
      | [] => [[c]]
      | s :: rest => (c :: s) :: rest

/-- `domain.starts_with(".")`. -/
def startsWithDot (domain : String) : Bool :=
  match domain.toList with
  | [] => false
  | c :: _ => c = '.'

/-- `fn domain_to_rseg(domain: &str) -> Vec<&str>` (lines 172-177 of
lib.rs): split on "." and reverse. -/
def domain_to_rseg (domain : String) : List String :=
  ((splitDots domain.toList).map (fun l => String.mk l)).reverse

/-- The loop body of `DomainLookupTree::insert` (lines 80-99 of lib.rs),
folded over `segments.iter().enumerate()`.  The fold state is the map that
`head` refers to, which is `self.nodes` throughout, since `head` is
initialized to `&mut self.nodes` and only ever assigned through (`*head =
n.nodes`), never re-pointed. -/
def insertLoop (is_wildcard : Bool) (segments_len : Nat) :
    NodeList → List (Nat × String) → NodeList
  | head, [] => head
  | head, (i, segment) :: rest =>
    match NodeList.get? head segment with
    | none =>
        insertLoop is_wildcard segments_len
          (NodeList.insertKV head segment
            (Node.mk (decide (i = segments_len) && is_wildcard) [] segment)) rest
    | some n => insertLoop is_wildcard segments_len n.nodes rest

/-- `DomainLookupTree::insert` (lines 73-114 of lib.rs). -/
def DomainLookupTree.insert (t : DomainLookupTree) (domain : String) :
    DomainLookupTree :=
  let is_wildcard := startsWithDot domain
  let segments := domain_to_rseg domain
  { t with nodes := insertLoop is_wildcard segments.length t.nodes segments.enum }

/-- The loop of `DomainLookupTree::traverse` (lines 131-167 of lib.rs):
`head` is the current map, `matched` the best candidate so far.  On a
missing key, return `matched`; on a hit, record the child when
`child.wildcard`; when `child.nodes.len() == 0`, set `matched` to the child
if `i == segments.len()` (the dead exact-match test) and break. -/
def traverseLoop (segments_len : Nat) :
    NodeList → Option Node → List (Nat × String) → Option Node
  | _, matched, [] => matched
  | head, matched, (i, segment) :: rest =>
    match NodeList.get? head segment with
    | none => matched
    | some child =>
        let matched' := if child.wildcard then some child else matched
        if child.nodes.length = 0 then
          if i = segments_len then some child else matched'
        else
          traverseLoop segments_len child.nodes matched' rest

/-- `DomainLookupTree::traverse` (lines 123-169 of lib.rs). -/
def DomainLookupTree.traverse (t : DomainLookupTree) (domain : String) :
    Option Node :=
  let segments := domain_to_rseg domain
  traverseLoop segments.length t.nodes none segments.enum

/-- `DomainLookupTree::lookup` (lines 116-121 of lib.rs): the traversed
node's `data` field. -/
def DomainLookupTree.lookup (t : DomainLookupTree) (domain : String) :
    Option String :=
  match t.traverse domain with
  | none => none
  | some node => some node.data

mutual

/-- No wildcard flag is set anywhere in this node's subtree. -/
def Node.noWild : Node → Bool
  | .mk w ns _ => !w && NodeList.noWildAll ns

/-- No wildcard flag is set anywhere below this node list. -/
def NodeList.noWildAll : List (String × Node) → Bool
  | [] => true
  | (_, n) :: rest => Node.noWild n && NodeList.noWildAll rest

end

example : domain_to_rseg "www.example.com" = ["com", "example", "www"] := by decide
example : domain_to_rseg ".test.com" = ["com", "test", ""] := by decide

/-- C1: the claim states that for every absolute rule R, inserting R and
then looking up R returns R.  On the code it fails already at the repo's
own test case `matches_direct`: inserting "test.com" into the empty tree
and looking up "test.com" returns `none` (insert does not descend on
creation and traverse's exact-match test `i == segments.len()` is
unreachable), not `some "test.com"`. -/
theorem c1_insert_lookup_absolute_eval :
    ((DomainLookupTree.new 0).insert "test.com").lookup "test.com" = none := by
  decide

/-- C2: the claim states that after inserting a wildcard rule ".X",
lookup of X and of any prefixed extension of X returns ".X".  On the code,
after inserting ".test.com" both lookups from the repo's own tests
`matches_wildcard_direct` and `matches_wildcard_upper_level` return `none`
(insert never sets a wildcard flag: its condition `i == segments_len` is
unreachable), not `some ".test.com"`. -/
theorem c2_insert_lookup_wildcard_eval :
    ((DomainLookupTree.new 0).insert ".test.com").lookup "test.com" = none ∧
      ((DomainLookupTree.new 0).insert ".test.com").lookup "123.test.com" = none := by
  constructor <;> decide

/-- C3: the claim states that traverse returns the node at position
`i = m-1` immediately as an exact match regardless of descendants, and in
particular that after inserting ".b.c" and "a.b.c", lookup of "a.b.c"
returns "a.b.c".  On the code both parts fail: the scenario returns `none`
(the second insert overwrites the root map with the children of "c"), and
in a hand-built tree whose root holds "c" with a child, traversing "c"
(fully consumed at a present label with descendants) returns `none`
because the exact-match test `i == segments.len()` is both unreachable and
guarded by `child.nodes.len() == 0`. -/
theorem c3_exact_match_eval :
    (((DomainLookupTree.new 0).insert ".b.c").insert "a.b.c").lookup "a.b.c" = none ∧
      (DomainLookupTree.mk
          [("c", Node.mk false [("b", Node.mk false [] "b")] "c")] 0).traverse "c"
          = none := by
  exact ⟨by decide, rfl⟩

/-- C4: the claim states that after inserting ".c" and ".b.c", lookup of
"x.b.c" returns ".b.c" (deepest wildcard wins).  On the code the lookup
returns `none`: neither insert sets a wildcard flag, and the second insert
overwrites the root map with the children of "c". -/
theorem c4_deepest_wildcard_eval :
    (((DomainLookupTree.new 0).insert ".c").insert ".b.c").lookup "x.b.c" = none := by
  decide

/-- C5: the claim states that when traverse finds a match, lookup returns
the consumed query labels rejoined by "." and prefixed with "." when the
matched node is wildcard-flagged.  On the code, in a tree whose node for
"test" under "com" is wildcard-flagged, traversing "x.test.com" matches
that node but lookup returns `some "test"` — the node's bare `data` label,
neither the reconstructed domain "test.com" nor dot-prefixed. -/
theorem c5_lookup_data_eval :
    ((DomainLookupTree.mk
        [("com", Node.mk false
            [("test", Node.mk true [("x", Node.mk false [] "x")] "test")] "com")]
        0).traverse "x.test.com").isSome = true ∧
      (DomainLookupTree.mk
        [("com", Node.mk false
            [("test", Node.mk true [("x", Node.mk false [] "x")] "test")] "com")]
        0).lookup "x.test.com" = some "test" := by
  constructor <;> decide

/-- C6: the claim states that inserting a wildcard rule creates the node at
position `n-2` with wildcard=true and stops the walk, never processing the
final empty artifact label.  On the code, inserting ".test.com" into the
empty tree leaves the "test" node with wildcard=false (the condition is
`i == segments_len`, never `i == segments_len - 2`), and the walk does not
stop: the empty label at `i = n-1` is processed and inserted as a root
node. -/
theorem c6_insert_wildcard_flag_eval :
    (NodeList.get? ((DomainLookupTree.new 0).insert ".test.com").nodes "test").map
        Node.wildcard = some false ∧
      (NodeList.get? ((DomainLookupTree.new 0).insert ".test.com").nodes "").isSome
        = true := by
  constructor <;> decide

/-- C7: the claim states that no node is ever keyed by the empty label.  On
the code, inserting ".test.com" into the empty tree stores a node under the
empty-string key at the root: the artifact segment of the leading dot is
inserted like any other label. -/
theorem c7_empty_label_inserted_eval :
    (NodeList.get? ((DomainLookupTree.new 0).insert ".test.com").nodes "").map
        Node.data = some "" := by
  decide

/-- C8: the claim states that inserting a rule twice yields the same lookup
results as inserting it once, for every tree state.  On the code, in a tree
whose root binds "a" to a node with a wildcard child "a", inserting "a"
once makes lookup "a" return `some "a"`, while inserting "a" twice makes it
return `none`: each insert along an existing path replaces the whole root
map by the matched child's map. -/
theorem c8_insert_not_idempotent_eval :
    ((DomainLookupTree.mk [("a", Node.mk false [("a", Node.mk true [] "a")] "a")]
          0).insert "a").lookup "a" = some "a" ∧
      (((DomainLookupTree.mk [("a", Node.mk false [("a", Node.mk true [] "a")] "a")]
          0).insert "a").insert "a").lookup "a" = none := by
  constructor <;> decide

/-- C9: insert and lookup are total and never raise a failure; the embedded
code has no failure path (no panic, no partial indexing), and on the
malformed inputs the spec singles out — the empty string, a lone ".", and a
multi-dot string — both operations complete, with lookup reporting "no
match" as the regular `none` outcome. -/
theorem c9_malformed_inputs_total :
    ((((DomainLookupTree.new 0).insert "").insert ".").insert "..x").lookup "" = none ∧
      ((((DomainLookupTree.new 0).insert "").insert ".").insert "..x").lookup "." = none ∧
      ((((DomainLookupTree.new 0).insert "").insert ".").insert "..x").lookup "..x"
        = none := by
  refine ⟨by decide, by decide, by decide⟩

/-- C10: for every tree and query, lookup returns a string exactly when
traverse returns a node (none if and only if none), and the returned
string is derived from the traversed node — it is that node's `data`
field. -/
theorem c10_lookup_traverse_agree (t : DomainLookupTree) (d : String) :
    (t.lookup d = none ↔ t.traverse d = none) ∧
      t.lookup d = (t.traverse d).map Node.data := by
  unfold DomainLookupTree.lookup
  cases t.traverse d <;> simp

theorem c10_lookup_traverse_agree_witness :
    ((DomainLookupTree.new 0).lookup "a" = none ↔
        (DomainLookupTree.new 0).traverse "a" = none) ∧
      (DomainLookupTree.new 0).lookup "a"
        = ((DomainLookupTree.new 0).traverse "a").map Node.data :=
  c10_lookup_traverse_agree (DomainLookupTree.new 0) "a"

theorem Node.noWild_wildcard {n : Node} (h : n.noWild = true) : n.wildcard = false := by
  cases n with
  | mk w ns d =>
    simp [Node.noWild, Node.wildcard] at h ⊢
    exact h.1

theorem Node.noWild_nodes {n : Node} (h : n.noWild = true) :
    NodeList.noWildAll n.nodes = true := by
  cases n with
  | mk w ns d =>
    simp [Node.noWild, Node.nodes] at h ⊢
    exact h.2

theorem NodeList.noWildAll_get? {l : NodeList} {k : String} {n : Node}
    (hl : NodeList.noWildAll l = true) (h : NodeList.get? l k = some n) :
    n.noWild = true := by
  induction l with
  | nil => simp [NodeList.get?] at h
  | cons p rest ih =>
    obtain ⟨k', n'⟩ := p
    simp [NodeList.noWildAll] at hl
    simp [NodeList.get?, List.find?] at h
    by_cases hk : k' == k
    · simp [hk] at h
      exact h ▸ hl.1
    · simp [hk] at h
      exact ih hl.2 (by simpa [NodeList.get?] using h)

theorem NodeList.noWildAll_append {l1 l2 : NodeList} :
    NodeList.noWildAll (l1 ++ l2)
      = (NodeList.noWildAll l1 && NodeList.noWildAll l2) := by
  induction l1 with
  | nil => simp [NodeList.noWildAll]
  | cons p rest ih =>
    obtain ⟨k, n⟩ := p
    simp [NodeList.noWildAll, ih, Bool.and_assoc]

theorem NodeList.noWildAll_map_replace {l : NodeList} {k : String} {v : Node}
    (hl : NodeList.noWildAll l = true) (hv : v.noWild = true) :
    NodeList.noWildAll
      (l.map (fun p => if p.1 == k then (k, v) else p)) = true := by
  induction l with
  | nil => simp [NodeList.noWildAll]
  | cons p rest ih =>
    obtain ⟨k', n'⟩ := p
    simp only [NodeList.noWildAll, Bool.and_eq_true] at hl
    by_cases hk : (k' == k) = true
    · rw [List.map_cons, if_pos hk]
      simp only [NodeList.noWildAll, Bool.and_eq_true]
      exact ⟨hv, ih hl.2⟩
    · rw [List.map_cons, if_neg hk]
      simp only [NodeList.noWildAll, Bool.and_eq_true]
      exact ⟨hl.1, ih hl.2⟩

theorem NodeList.noWildAll_insertKV {l : NodeList} {k : String} {v : Node}
    (hl : NodeList.noWildAll l = true) (hv : v.noWild = true) :
    NodeList.noWildAll (NodeList.insertKV l k v) = true := by
  unfold NodeList.insertKV
  split
  · exact NodeList.noWildAll_map_replace hl hv
  · simp [NodeList.noWildAll_append, NodeList.noWildAll, hl, hv]

theorem insertLoop_noWild (is_wildcard : Bool) (segments_len : Nat)
    (pairs : List (Nat × String)) :
    ∀ head : NodeList, NodeList.noWildAll head = true →
      (∀ p ∈ pairs, p.1 ≠ segments_len) →
      NodeList.noWildAll (insertLoop is_wildcard segments_len head pairs) = true := by
  induction pairs with
  | nil => intro head hh _; simpa [insertLoop] using hh
  | cons p rest ih =>
    intro head hh hp
    obtain ⟨i, segment⟩ := p
    have hi : i ≠ segments_len := hp (i, segment) (List.mem_cons_self _ _)
    have hrest : ∀ q ∈ rest, q.1 ≠ segments_len :=
      fun q hq => hp q (List.mem_cons_of_mem _ hq)
    unfold insertLoop
    cases hg : NodeList.get? head segment with
    | none =>
      exact ih _
        (NodeList.noWildAll_insertKV hh
          (by simp [Node.noWild, NodeList.noWildAll, hi]))
        hrest
    | some n =>
      exact ih _ (Node.noWild_nodes (NodeList.noWildAll_get? hh hg)) hrest

theorem traverseLoop_none (segments_len : Nat) (pairs : List (Nat × String)) :
    ∀ head : NodeList, NodeList.noWildAll head = true →
      (∀ p ∈ pairs, p.1 ≠ segments_len) →
      traverseLoop segments_len head none pairs = none := by
  induction pairs with
  | nil => intro head _ _; rfl
  | cons p rest ih =>
    intro head hh hp
    obtain ⟨i, segment⟩ := p
    have hi : i ≠ segments_len := hp (i, segment) (List.mem_cons_self _ _)
    have hrest : ∀ q ∈ rest, q.1 ≠ segments_len :=
      fun q hq => hp q (List.mem_cons_of_mem _ hq)
    unfold traverseLoop
    cases hg : NodeList.get? head segment with
    | none => rfl
    | some child =>
      have hnw := NodeList.noWildAll_get? hh hg
      have hcw : child.wildcard = false := Node.noWild_wildcard hnw
      by_cases hlen : child.nodes.length = 0
      · simp [hcw, hlen, hi]
      · simp only [hcw, Bool.false_eq_true, if_false, if_neg hlen]
        exact ih _ (Node.noWild_nodes hnw) hrest

theorem DomainLookupTree.insert_noWildAll {t : DomainLookupTree}
    (h : NodeList.noWildAll t.nodes = true) (d : String) :
    NodeList.noWildAll (t.insert d).nodes = true := by
  show NodeList.noWildAll
    (insertLoop (startsWithDot d) (domain_to_rseg d).length t.nodes
      (domain_to_rseg d).enum) = true
  exact insertLoop_noWild _ _ _ t.nodes h
    (List.forall_mem_enum.mpr (fun i hlt => Nat.ne_of_lt hlt))

/-- Any tree reachable from `new` by a sequence of inserts carries no
wildcard flag anywhere (the flag condition `i == segments_len` in `insert`
is unreachable), and since the exact-match branch of `traverse` is also
unreachable, every lookup on such a tree returns `none`. -/
theorem lookup_after_inserts_none (rules : List String) (q : String) :
    (rules.foldl DomainLookupTree.insert (DomainLookupTree.new 0)).lookup q
      = none := by
  have hfold : ∀ (rs : List String) (t : DomainLookupTree),
      NodeList.noWildAll t.nodes = true →
      NodeList.noWildAll (rs.foldl DomainLookupTree.insert t).nodes = true := by
    intro rs
    induction rs with
    | nil => intro t ht; exact ht
    | cons r rest ih =>
      intro t ht
      exact ih _ (DomainLookupTree.insert_noWildAll ht r)
  have hnw : NodeList.noWildAll
      (rules.foldl DomainLookupTree.insert (DomainLookupTree.new 0)).nodes
        = true :=
    hfold rules _ (by simp [DomainLookupTree.new, NodeList.noWildAll])
  have ht : (rules.foldl DomainLookupTree.insert
      (DomainLookupTree.new 0)).traverse q = none := by
    show traverseLoop (domain_to_rseg q).length
      (rules.foldl DomainLookupTree.insert (DomainLookupTree.new 0)).nodes none
      (domain_to_rseg q).enum = none
    exact traverseLoop_none _ _ _ hnw
      (List.forall_mem_enum.mpr (fun i hlt => Nat.ne_of_lt hlt))
  simp [DomainLookupTree.lookup, ht]
